import Mathlib

/-!
# Verification of the pinchme incremental-polling core

This file is a shallow embedding of the polling / watermark / dispatch logic
of the pinchme repository (the per-account poller of `src/index.js`, whose
`poll` is line-for-line the same as the one in the PostgreSQL variant with
debug state), of the scheduler hooks (`schedulePoll`, `restartPolling`), of
the consumer-side dedup cache of the webhook receiver, and of the API-key
resolution of the session-based MCP server.  The specification claims are
proved (or refuted) against these definitions.

Modelling conventions:

* Item identifiers are snowflake-like strings that the code compares with the
  total string order (`t.id > lastSeenId`, `b.id.localeCompare(a.id)`); the
  spec (§3) documents that a plain comparison of ids determines recency.  The
  embedding abstracts the identifier type to an arbitrary `LinearOrder`;
  witnesses instantiate it with `Nat`.
* JavaScript `toLowerCase()` on handles is modelled as the character-wise
  simple case map (handles are ASCII, §3 of the spec).
* The Postgres `state` table is a function from handle to `Option` id; an
  absent row is `none`.  Item ids are never the empty string, so the
  `|| null` coercion in `getLastSeenId` is the identity on stored ids.
* `async` control flow is sequentialised: one poll cycle is a pure function
  from the watermark state and the fetched batch to the list of webhook
  calls made and the new watermark state.  The boolean a webhook delivery
  resolves to is supplied by a `sink` oracle; `poll` ignores it, exactly as
  the JavaScript drops the result of `await sendToWebhook(...)`.
* A fetch that throws is an `Except.error` input; the `try`/`catch` around
  the cycle is the `error` branch of `pollRun`.
-/

namespace PinchMe

/-- JavaScript `String.prototype.toLowerCase()` restricted to the simple
character-wise case mapping (monitored handles are ASCII: 1-15 chars,
alphanumeric or underscore). -/
def jsToLower (s : String) : String :=
  String.mk (s.data.map Char.toLower)

/-- A fetched item as `poll` uses it: its id and `tweet.author?.userName`
(`none` when the author field or user name is missing). -/
structure Tweet (Id : Type) where
  id : Id
  author : Option String
deriving DecidableEq

/-- The grouping key of an item: `tweet.author?.userName?.toLowerCase()`
followed by the `if (!author) continue;` falsiness guard, which skips an
item whose author user name is missing or empty. -/
def authorKey {Id : Type} (t : Tweet Id) : Option String :=
  match t.author with
  | none => none
  | some a => if jsToLower a = "" then none else some (jsToLower a)

/-- Appends tweet `t` to the bucket of key `k`, creating the bucket at the
end when the key is new: `if (!byAuthor[author]) byAuthor[author] = [];
byAuthor[author].push(tweet);` with JavaScript object insertion order. -/
def addToGroup {Id : Type} (g : List (String × List (Tweet Id))) (k : String)
    (t : Tweet Id) : List (String × List (Tweet Id)) :=
  match g with
  | [] => [(k, [t])]
  | (k₀, ts) :: rest =>
    if k₀ = k then (k₀, ts ++ [t]) :: rest else (k₀, ts) :: addToGroup rest k t

/-- The `byAuthor` grouping loop of `poll`: buckets in key insertion order,
each bucket in fetch order; items without an author key are dropped. -/
def groupByAuthor {Id : Type} (tweets : List (Tweet Id)) :
    List (String × List (Tweet Id)) :=
  tweets.foldl
    (fun g t =>
      match authorKey t with
      | none => g
      | some k => addToGroup g k t)
    []

/-- Association lookup in a grouping, for stating what `byAuthor[k]` is. -/
def findGroup {Id : Type} (g : List (String × List (Tweet Id))) (k : String) :
    Option (List (Tweet Id)) :=
  match g with
  | [] => none
  | (k₀, ts) :: rest => if k₀ = k then some ts else findGroup rest k

/-- The items of a batch attributed to key `k` (in fetch order). -/
def filterKey {Id : Type} (tweets : List (Tweet Id)) (k : String) :
    List (Tweet Id) :=
  tweets.filter fun t => authorKey t = some k

/-- How a bucket grows over a batch: absent stays absent on no matches,
otherwise the matches are appended. -/
def mergeGroup {Id : Type} (o : Option (List (Tweet Id)))
    (f : List (Tweet Id)) : Option (List (Tweet Id)) :=
  match o with
  | none => match f with
    | [] => none
    | _ => some f
  | some ts => some (ts ++ f)

/-- One insertion step of a stable descending sort by id, modelling
`authorTweets.sort((a, b) => b.id.localeCompare(a.id))` (newest first,
ties kept in fetch order). -/
def insertDesc {Id : Type} [LinearOrder Id] (t : Tweet Id) :
    List (Tweet Id) → List (Tweet Id)
  | [] => [t]
  | x :: xs => if x.id ≤ t.id then t :: x :: xs else x :: insertDesc t xs

/-- Stable sort of a bucket by id, newest first. -/
def sortByIdDesc {Id : Type} [LinearOrder Id] (l : List (Tweet Id)) :
    List (Tweet Id) :=
  l.foldr insertDesc []

/-- The watermark store (`state` table): handle to `last_seen_id`. -/
abbrev Wm (Id : Type) := String → Option Id

/-- `getLastSeenId(handle)`: reads the row keyed by the lowercased handle. -/
def getWm {Id : Type} (w : Wm Id) (h : String) : Option Id :=
  w (jsToLower h)

/-- `setLastSeenId(handle, tweetId)`: upserts the row keyed by the
lowercased handle. -/
def setWm {Id : Type} (w : Wm Id) (h : String) (i : Id) : Wm Id :=
  fun k => if k = jsToLower h then some i else w k

/-- The per-author body of the poll loop:

```
authorTweets.sort((a, b) => b.id.localeCompare(a.id)); // newest first
const lastSeenId = await getLastSeenId(author);
if (!lastSeenId) { await setLastSeenId(author, authorTweets[0].id); continue; }
const newTweets = authorTweets.filter(t => t.id > lastSeenId);
if (newTweets.length > 0) {
  newTweets.reverse();
  for (const tweet of newTweets) { await sendToWebhook(config, tweet, handleConfig); newCount++; }
  await setLastSeenId(author, authorTweets[0].id);
}
```

Returns the webhook calls made for this author, in call order and paired
with the boolean each delivery resolved to (which `poll` ignores), and the
watermark state afterwards.  The `[]` case of the sorted bucket is
unreachable because grouping only creates nonempty buckets. -/
def processAuthor {Id : Type} [LinearOrder Id] (sink : Tweet Id → Bool)
    (w : Wm Id) (author : String) (ts : List (Tweet Id)) :
    List (Tweet Id × Bool) × Wm Id :=
  match sortByIdDesc ts with
  | [] => ([], w)
  | top :: rest =>
    match getWm w author with
    | none => ([], setWm w author top.id)
    | some lastSeen =>
      match (top :: rest).filter (fun t => lastSeen < t.id) with
      | [] => ([], w)
      | n₀ :: ns =>
        (((n₀ :: ns).reverse).map (fun t => (t, sink t)),
          setWm w author top.id)

/-- One step of `for (const [author, authorTweets] of Object.entries(byAuthor))`:
threads the watermark store and records this author's webhook calls. -/
def pollEntryStep {Id : Type} [LinearOrder Id] (sink : Tweet Id → Bool)
    (acc : List (String × List (Tweet Id × Bool)) × Wm Id)
    (e : String × List (Tweet Id)) :
    List (String × List (Tweet Id × Bool)) × Wm Id :=
  (acc.1 ++ [(e.1, (processAuthor sink acc.2 e.1 e.2).1)],
    (processAuthor sink acc.2 e.1 e.2).2)

/-- The grouping-and-dispatch part of one `poll()` cycle over a fetched
batch: groups by author, then runs the per-author diff/dispatch loop. -/
def pollCycle {Id : Type} [LinearOrder Id] (sink : Tweet Id → Bool)
    (w : Wm Id) (tweets : List (Tweet Id)) :
    List (String × List (Tweet Id × Bool)) × Wm Id :=
  (groupByAuthor tweets).foldl (pollEntryStep sink) ([], w)

/-- The whole of `poll()` up to rescheduling: an empty handle list skips the
cycle; a fetch that throws is caught with every watermark untouched and no
webhook call made; otherwise the batch is processed by `pollCycle`.  (An
empty batch also makes no calls and no writes: `pollCycle` of `[]` is the
identity, matching the `tweets.length === 0` early return.) -/
def pollRun {Id : Type} [LinearOrder Id] (sink : Tweet Id → Bool) (w : Wm Id)
    (handles : List String) (fetched : Except String (List (Tweet Id))) :
    List (String × List (Tweet Id × Bool)) × Wm Id :=
  match handles with
  | [] => ([], w)
  | _ =>
    match fetched with
    | Except.error _ => ([], w)
    | Except.ok tweets => pollCycle sink w tweets

/-! ## The scheduler (`schedulePoll` / `restartPolling`)

The process-level scheduling state of `src/index.js` consists of the armed
timer handle `pollTimeout` and however many `poll()` invocations are
currently in flight on the event loop (the code keeps no running/idle flag,
so nothing bounds that number).  The events are: the initial `poll()` call
in `main()`; the timer firing (`setTimeout(poll, ...)`); a manual trigger or
configuration change calling `restartPolling()`, which is
`clearTimeout(pollTimeout); poll();`; and a running cycle finishing, whose
last act is `schedulePoll` (clear any timer, arm a new one). -/

/-- Scheduler state: in-flight `poll()` cycles and whether `pollTimeout`
is armed. -/
structure SchedState where
  running : Nat
  timerArmed : Bool
deriving DecidableEq

/-- Scheduler events observable at the `poll()` boundary. -/
inductive SchedEvent where
  | boot
  | timerFire
  | trigger
  | finish
deriving DecidableEq

/-- One scheduler transition.  `trigger` is `restartPolling()`: it clears
the pending timer and invokes `poll()` unconditionally — there is no check
whether a cycle is already running. -/
def schedStep (s : SchedState) (e : SchedEvent) : SchedState :=
  match e with
  | SchedEvent.boot => { s with running := s.running + 1 }
  | SchedEvent.timerFire =>
    if s.timerArmed then { running := s.running + 1, timerArmed := false } else s
  | SchedEvent.trigger => { running := s.running + 1, timerArmed := false }
  | SchedEvent.finish =>
    if s.running > 0 then { running := s.running - 1, timerArmed := true } else s

/-- Runs a sequence of scheduler events from process start (nothing
running, no timer armed). -/
def schedRun (es : List SchedEvent) : SchedState :=
  es.foldl schedStep { running := 0, timerArmed := false }

/-! ## The consumer dedup cache (webhook receiver)

```
const recentTweets = new Set();
...
if (recentTweets.has(tweet.id)) { ... skip ... }
recentTweets.add(tweet.id);
if (recentTweets.size > 100) {
  const first = recentTweets.values().next().value;
  recentTweets.delete(first);
}
```

A JavaScript `Set` iterates in insertion order, so it is modelled as a
duplicate-free list with the oldest element at the head. -/

/-- `recentTweets.has(id)`. -/
def seen {α : Type} [DecidableEq α] (cache : List α) (x : α) : Bool :=
  cache.contains x

/-- `recentTweets.add(id)` followed by the size check that deletes the
oldest entry once the size exceeds 100. -/
def remember {α : Type} [DecidableEq α] (cache : List α) (x : α) : List α :=
  match (if cache.contains x then cache else cache ++ [x]) with
  | c => if c.length > 100 then c.tail else c

/-! ## The session-based MCP server's API-key resolution

Module state of the MCP server variant with sessions:
`const sessions = {}` (sessionId to stored key), `let lastUsedApiKey = null`,
and `const validatedApiKeys = new Set()`. -/

/-- The MCP server's module-level mutable state. -/
structure McpState where
  sessions : String → Option String
  lastUsedApiKey : Option String
  validatedApiKeys : List String

/-- Step 3 of `getApiKey`:
`if (lastUsedApiKey && validatedApiKeys.has(lastUsedApiKey)) return lastUsedApiKey; return null;`. -/
def getApiKeyLastUsed (st : McpState) : Option String :=
  match st.lastUsedApiKey with
  | none => none
  | some k =>
    if k = "" then none
    else if st.validatedApiKeys.contains k then some k else none

/-- Steps 2–3 of `getApiKey`: the session-stored key if truthy, else the
last-used fallback. -/
def getApiKeySession (st : McpState) (sessionId : String) : Option String :=
  match st.sessions sessionId with
  | none => getApiKeyLastUsed st
  | some k => if k = "" then getApiKeyLastUsed st else some k

/-- `getApiKey(sessionId, paramApiKey)`: a truthy parameter wins and is
remembered in `lastUsedApiKey`; otherwise the session store, then the
global fallback, decide.  Returns the resolved key and the state after the
call (the only mutation is `lastUsedApiKey = paramApiKey`). -/
def getApiKey (st : McpState) (sessionId : String)
    (paramApiKey : Option String) : Option String × McpState :=
  match paramApiKey with
  | some k =>
    if k = "" then (getApiKeySession st sessionId, st)
    else (some k, { st with lastUsedApiKey := some k })
  | none => (getApiKeySession st sessionId, st)

/-- `validateApiKey(apiKey)` of the MCP server: cache hit, else ask the
backend (`backendValid` abstracts the `GET /config` probe) and cache a
valid key. -/
def validateApiKeyM (backendValid : String → Bool) (st : McpState)
    (k : String) : Bool × McpState :=
  if st.validatedApiKeys.contains k then (true, st)
  else if backendValid k then
    (true, { st with validatedApiKeys := st.validatedApiKeys ++ [k] })
  else (false, st)

/-- The `authenticate` tool: rejects a falsy key, validates, and on success
stores the key in this session, in `lastUsedApiKey`, and in the
validated-keys cache. -/
def authenticateTool (backendValid : String → Bool) (st : McpState)
    (sessionId : String) (apiKey : String) : Bool × McpState :=
  if apiKey = "" then (false, st)
  else
    match validateApiKeyM backendValid st apiKey with
    | (false, st₁) => (false, st₁)
    | (true, st₁) =>
      (true,
        { sessions := fun s => if s = sessionId then some apiKey else st₁.sessions s,
          lastUsedApiKey := some apiKey,
          validatedApiKeys :=
            if st₁.validatedApiKeys.contains apiKey then st₁.validatedApiKeys
            else st₁.validatedApiKeys ++ [apiKey] })

/-! ## Case-map lemmas -/

theorem charOfNat_toNat_lower (n : Nat) (h1 : 65 ≤ n) (h2 : n ≤ 90) :
    (Char.ofNat (n + 32)).toNat = n + 32 := by
  interval_cases n <;> decide

theorem charToLower_of_not_upper (c : Char)
    (h : ¬(65 ≤ c.toNat ∧ c.toNat ≤ 90)) : c.toLower = c := by
  unfold Char.toLower
  simp only [ge_iff_le]
  exact if_neg h

theorem charToLower_of_upper (c : Char)
    (h : 65 ≤ c.toNat ∧ c.toNat ≤ 90) : c.toLower = Char.ofNat (c.toNat + 32) := by
  unfold Char.toLower
  simp only [ge_iff_le]
  exact if_pos h

theorem charToLower_idem (c : Char) : c.toLower.toLower = c.toLower := by
  by_cases h : 65 ≤ c.toNat ∧ c.toNat ≤ 90
  · rw [charToLower_of_upper c h]
    apply charToLower_of_not_upper
    rw [charOfNat_toNat_lower c.toNat h.1 h.2]
    omega
  · rw [charToLower_of_not_upper c h, charToLower_of_not_upper c h]

theorem jsToLower_idem (s : String) : jsToLower (jsToLower s) = jsToLower s := by
  unfold jsToLower
  simp only [List.map_map]
  congr 1
  apply List.map_congr_left
  intro c _
  exact charToLower_idem c

/-! ## Sorting lemmas -/

theorem mem_insertDesc {Id : Type} [LinearOrder Id] (t a : Tweet Id)
    (l : List (Tweet Id)) : a ∈ insertDesc t l ↔ a = t ∨ a ∈ l := by
  induction l with
  | nil => simp [insertDesc]
  | cons x xs ih =>
    simp only [insertDesc]
    by_cases h : x.id ≤ t.id
    · rw [if_pos h]
      simp [List.mem_cons]
    · rw [if_neg h]
      simp only [List.mem_cons, ih]
      tauto

theorem pairwise_ge_insertDesc {Id : Type} [LinearOrder Id] (t : Tweet Id)
    (l : List (Tweet Id)) (hl : l.Pairwise fun a b => b.id ≤ a.id) :
    (insertDesc t l).Pairwise fun a b => b.id ≤ a.id := by
  induction l with
  | nil => simp [insertDesc]
  | cons x xs ih =>
    rw [List.pairwise_cons] at hl
    unfold insertDesc
    by_cases h : x.id ≤ t.id
    · rw [if_pos h, List.pairwise_cons]
      refine ⟨?_, List.pairwise_cons.mpr hl⟩
      intro y hy
      rcases List.mem_cons.mp hy with rfl | hy
      · exact h
      · exact le_trans (hl.1 y hy) h
    · rw [if_neg h, List.pairwise_cons]
      refine ⟨?_, ih hl.2⟩
      intro y hy
      rcases (mem_insertDesc t y xs).mp hy with rfl | hy
      · exact le_of_lt (lt_of_not_le h)
      · exact hl.1 y hy

theorem sortByIdDesc_pairwise {Id : Type} [LinearOrder Id]
    (l : List (Tweet Id)) :
    (sortByIdDesc l).Pairwise fun a b => b.id ≤ a.id := by
  induction l with
  | nil => simp [sortByIdDesc]
  | cons x xs ih => exact pairwise_ge_insertDesc x (sortByIdDesc xs) ih

theorem mem_sortByIdDesc {Id : Type} [LinearOrder Id] (a : Tweet Id)
    (l : List (Tweet Id)) : a ∈ sortByIdDesc l ↔ a ∈ l := by
  induction l with
  | nil => simp [sortByIdDesc]
  | cons x xs ih =>
    show a ∈ insertDesc x (sortByIdDesc xs) ↔ _
    rw [mem_insertDesc, ih, List.mem_cons]

theorem sortByIdDesc_head_max {Id : Type} [LinearOrder Id]
    (l : List (Tweet Id)) (top : Tweet Id) (rest : List (Tweet Id))
    (h : sortByIdDesc l = top :: rest) (t : Tweet Id) (ht : t ∈ l) :
    t.id ≤ top.id := by
  have hp := sortByIdDesc_pairwise l
  rw [h, List.pairwise_cons] at hp
  have hmem : t ∈ top :: rest := by
    rw [← h]
    exact (mem_sortByIdDesc t l).mpr ht
  rcases List.mem_cons.mp hmem with rfl | hmem
  · exact le_refl _
  · exact hp.1 t hmem

/-! ## Grouping lemmas -/

theorem authorKey_lowered {Id : Type} (t : Tweet Id) (k : String)
    (h : authorKey t = some k) : jsToLower k = k := by
  cases ha : t.author with
  | none => simp [authorKey, ha] at h
  | some a =>
    simp only [authorKey, ha] at h
    by_cases he : jsToLower a = ""
    · rw [if_pos he] at h
      exact absurd h (by simp)
    · rw [if_neg he] at h
      have hk : jsToLower a = k := Option.some_injective _ h
      rw [← hk]
      exact jsToLower_idem a

theorem findGroup_addToGroup_self {Id : Type}
    (g : List (String × List (Tweet Id))) (k : String) (t : Tweet Id) :
    findGroup (addToGroup g k t) k = some ((findGroup g k).getD [] ++ [t]) := by
  induction g with
  | nil => simp [addToGroup, findGroup]
  | cons e rest ih =>
    obtain ⟨k₀, ts⟩ := e
    unfold addToGroup
    by_cases h : k₀ = k
    · subst h
      simp [findGroup]
    · rw [if_neg h]
      unfold findGroup
      rw [if_neg h, if_neg h]
      exact ih

theorem findGroup_addToGroup_ne {Id : Type}
    (g : List (String × List (Tweet Id))) (k k₀ : String) (t : Tweet Id)
    (h : k₀ ≠ k) : findGroup (addToGroup g k t) k₀ = findGroup g k₀ := by
  induction g with
  | nil =>
    simp only [addToGroup, findGroup]
    rw [if_neg (fun he => h he.symm)]
  | cons e rest ih =>
    obtain ⟨k₁, ts⟩ := e
    simp only [addToGroup]
    by_cases h₁ : k₁ = k
    · rw [if_pos h₁]
      simp only [findGroup]
      rw [h₁, if_neg (fun he => h he.symm), if_neg (fun he => h he.symm)]
    · rw [if_neg h₁]
      simp only [findGroup]
      by_cases h₂ : k₁ = k₀
      · rw [if_pos h₂, if_pos h₂]
      · rw [if_neg h₂, if_neg h₂]
        exact ih

theorem findGroup_fold {Id : Type} (l : List (Tweet Id)) :
    ∀ (g : List (String × List (Tweet Id))) (k : String),
      findGroup
        (l.foldl
          (fun g t =>
            match authorKey t with
            | none => g
            | some k => addToGroup g k t)
          g) k
        = mergeGroup (findGroup g k) (filterKey l k) := by
  induction l with
  | nil =>
    intro g k
    cases h : findGroup g k <;> simp [mergeGroup, filterKey, h]
  | cons t l ih =>
    intro g k
    rw [List.foldl_cons]
    cases hk : authorKey t with
    | none =>
      have hf : filterKey (t :: l) k = filterKey l k := by
        simp [filterKey, hk]
      simp only [hk]
      rw [ih g k, hf]
    | some k₀ =>
      simp only [hk]
      by_cases hkk : k₀ = k
      · subst hkk
        have hf : filterKey (t :: l) k₀ = t :: filterKey l k₀ := by
          simp [filterKey, hk]
        rw [ih (addToGroup g k₀ t) k₀, hf, findGroup_addToGroup_self]
        cases hg : findGroup g k₀ with
        | none => simp [mergeGroup]
        | some ts => simp [mergeGroup]
      · have hf : filterKey (t :: l) k = filterKey l k := by
          simp [filterKey, hk, hkk]
        rw [ih (addToGroup g k₀ t) k, hf,
          findGroup_addToGroup_ne g k₀ k t (fun he => hkk he.symm)]

theorem findGroup_groupByAuthor {Id : Type} (l : List (Tweet Id)) (k : String) :
    findGroup (groupByAuthor l) k = mergeGroup none (filterKey l k) := by
  unfold groupByAuthor
  rw [findGroup_fold l [] k]
  rfl

theorem findGroup_groupByAuthor_some {Id : Type} (l : List (Tweet Id))
    (k : String) (ts : List (Tweet Id)) :
    findGroup (groupByAuthor l) k = some ts ↔
      (ts = filterKey l k ∧ ts ≠ []) := by
  rw [findGroup_groupByAuthor]
  cases h : filterKey l k with
  | nil => simp [mergeGroup]
  | cons x xs =>
    simp only [mergeGroup, Option.some.injEq]
    constructor
    · rintro rfl
      exact ⟨rfl, by simp⟩
    · rintro ⟨rfl, -⟩
      rfl

theorem mem_addToGroup_key {Id : Type} (g : List (String × List (Tweet Id)))
    (k : String) (t : Tweet Id) (e : String × List (Tweet Id))
    (h : e ∈ addToGroup g k t) : e.1 = k ∨ e.1 ∈ g.map Prod.fst := by
  induction g with
  | nil =>
    simp [addToGroup] at h
    subst h
    simp
  | cons e₀ rest ih =>
    obtain ⟨k₀, ts⟩ := e₀
    unfold addToGroup at h
    by_cases hk : k₀ = k
    · subst hk
      rw [if_pos rfl] at h
      rcases List.mem_cons.mp h with rfl | h
      · simp
      · right
        exact List.mem_map_of_mem Prod.fst (List.mem_cons_of_mem _ h)
    · rw [if_neg hk] at h
      rcases List.mem_cons.mp h with rfl | h
      · simp
      · rcases ih h with h | h
        · exact Or.inl h
        · right
          simp only [List.map_cons, List.mem_cons]
          exact Or.inr h

theorem pairwise_keys_addToGroup {Id : Type}
    (g : List (String × List (Tweet Id))) (k : String) (t : Tweet Id)
    (hg : g.Pairwise fun e e' => e.1 ≠ e'.1) :
    (addToGroup g k t).Pairwise fun e e' => e.1 ≠ e'.1 := by
  induction g with
  | nil => simp [addToGroup]
  | cons e₀ rest ih =>
    obtain ⟨k₀, ts⟩ := e₀
    rw [List.pairwise_cons] at hg
    unfold addToGroup
    by_cases hk : k₀ = k
    · subst hk
      rw [if_pos rfl, List.pairwise_cons]
      exact ⟨hg.1, hg.2⟩
    · rw [if_neg hk, List.pairwise_cons]
      refine ⟨?_, ih hg.2⟩
      intro e he
      rcases mem_addToGroup_key rest k t e he with h | h
      · rw [h]
        exact hk
      · rcases List.mem_map.mp h with ⟨e', he', hfst⟩
        rw [← hfst]
        exact hg.1 e' he'

theorem groupByAuthor_keys_pairwise {Id : Type} (l : List (Tweet Id)) :
    (groupByAuthor l).Pairwise fun e e' => e.1 ≠ e'.1 := by
  unfold groupByAuthor
  suffices h : ∀ (g : List (String × List (Tweet Id))),
      (g.Pairwise fun e e' => e.1 ≠ e'.1) →
      ((l.foldl
        (fun g t =>
          match authorKey t with
          | none => g
          | some k => addToGroup g k t)
        g).Pairwise fun e e' => e.1 ≠ e'.1) by
    exact h [] (by simp)
  induction l with
  | nil => intro g hg; exact hg
  | cons t l ih =>
    intro g hg
    rw [List.foldl_cons]
    cases hk : authorKey t with
    | none => simp only [hk]; exact ih g hg
    | some k => simp only [hk]; exact ih _ (pairwise_keys_addToGroup g k t hg)

theorem mem_group_iff_findGroup {Id : Type}
    (g : List (String × List (Tweet Id)))
    (hg : g.Pairwise fun e e' => e.1 ≠ e'.1) (k : String)
    (ts : List (Tweet Id)) : (k, ts) ∈ g ↔ findGroup g k = some ts := by
  induction g with
  | nil => simp [findGroup]
  | cons e₀ rest ih =>
    obtain ⟨k₀, ts₀⟩ := e₀
    rw [List.pairwise_cons] at hg
    unfold findGroup
    by_cases h : k₀ = k
    · subst h
      rw [if_pos rfl]
      constructor
      · intro hmem
        rcases List.mem_cons.mp hmem with he | hmem
        · injection he with h1 h2
          rw [h2]
        · exact absurd rfl (hg.1 (k₀, ts) hmem)
      · intro he
        injection he with hts
        exact List.mem_cons.mpr (Or.inl (by rw [hts]))
    · rw [if_neg h]
      constructor
      · intro hmem
        rcases List.mem_cons.mp hmem with he | hmem
        · injection he with h1 h2
          exact absurd h1.symm h
        · exact (ih hg.2).mp hmem
      · intro he
        exact List.mem_cons.mpr (Or.inr ((ih hg.2).mpr he))

theorem groupByAuthor_key_lowered {Id : Type} (l : List (Tweet Id))
    (e : String × List (Tweet Id)) (h : e ∈ groupByAuthor l) :
    jsToLower e.1 = e.1 := by
  obtain ⟨k, ts⟩ := e
  rw [mem_group_iff_findGroup _ (groupByAuthor_keys_pairwise l)] at h
  rw [findGroup_groupByAuthor_some] at h
  obtain ⟨hts, hne⟩ := h
  obtain ⟨t, hmem⟩ := List.exists_mem_of_ne_nil ts hne
  rw [hts] at hmem
  have := List.of_mem_filter hmem
  exact authorKey_lowered t k (by simpa using this)

/-! ## Per-author step lemmas -/

theorem processAuthor_snd_apply_ne {Id : Type} [LinearOrder Id]
    (sink : Tweet Id → Bool) (w : Wm Id) (a : String) (ts : List (Tweet Id))
    (k : String) (hk : k ≠ jsToLower a) :
    (processAuthor sink w a ts).2 k = w k := by
  unfold processAuthor
  split
  · rfl
  · split
    · simp [setWm, hk]
    · split
      · rfl
      · simp [setWm, hk]

theorem processAuthor_fst_congr {Id : Type} [LinearOrder Id]
    (sink : Tweet Id → Bool) (w₁ w₂ : Wm Id) (a : String)
    (ts : List (Tweet Id)) (h : getWm w₁ a = getWm w₂ a) :
    (processAuthor sink w₁ a ts).1 = (processAuthor sink w₂ a ts).1 := by
  unfold processAuthor
  rw [h]
  split
  · rfl
  · split
    · rfl
    · split
      · rfl
      · rfl

theorem processAuthor_snd_self_congr {Id : Type} [LinearOrder Id]
    (sink : Tweet Id → Bool) (w₁ w₂ : Wm Id) (a : String)
    (ts : List (Tweet Id)) (h : getWm w₁ a = getWm w₂ a) :
    (processAuthor sink w₁ a ts).2 (jsToLower a)
      = (processAuthor sink w₂ a ts).2 (jsToLower a) := by
  unfold processAuthor
  rw [h]
  split
  · exact h
  · split
    · simp [setWm]
    · split
      · exact h
      · simp [setWm]

theorem processAuthor_snd_sink_ind {Id : Type} [LinearOrder Id]
    (sink₁ sink₂ : Tweet Id → Bool) (w : Wm Id) (a : String)
    (ts : List (Tweet Id)) :
    (processAuthor sink₁ w a ts).2 = (processAuthor sink₂ w a ts).2 := by
  unfold processAuthor
  split
  · rfl
  · split
    · rfl
    · split
      · rfl
      · rfl

theorem processAuthor_snd_mono {Id : Type} [LinearOrder Id]
    (sink : Tweet Id → Bool) (w : Wm Id) (a : String) (ts : List (Tweet Id))
    (k : String) (v : Id) (h : w k = some v) :
    ∃ v', (processAuthor sink w a ts).2 k = some v' ∧ v ≤ v' := by
  unfold processAuthor
  split
  · exact ⟨v, h, le_refl v⟩
  next top rest hs =>
    split
    next hg =>
      by_cases hk : k = jsToLower a
      · rw [hk] at h
        have hg' : w (jsToLower a) = none := hg
        rw [h] at hg'
        cases hg'
      · exact ⟨v, by simp [setWm, hk, h], le_refl v⟩
    next lastSeen hg =>
      split
      next hf => exact ⟨v, h, le_refl v⟩
      next n₀ ns hf =>
        by_cases hk : k = jsToLower a
        · refine ⟨top.id, by simp [setWm, hk], ?_⟩
          have hv : some v = some lastSeen := by
            rw [← h, hk]
            exact hg
          have hv' : v = lastSeen := Option.some_injective _ hv
          have hn : n₀ ∈ (top :: rest).filter (fun t => decide (lastSeen < t.id)) := by
            rw [hf]
            exact List.mem_cons_self _ _
          have hlt : lastSeen < n₀.id := by
            have := List.of_mem_filter hn
            simpa using this
          have hmem : n₀ ∈ top :: rest := List.mem_of_mem_filter hn
          have hle : n₀.id ≤ top.id := by
            have hp := sortByIdDesc_pairwise ts
            rw [hs, List.pairwise_cons] at hp
            rcases List.mem_cons.mp hmem with rfl | hm
            · exact le_refl _
            · exact hp.1 n₀ hm
          rw [hv']
          exact le_trans (le_of_lt hlt) hle
        · exact ⟨v, by simp [setWm, hk, h], le_refl v⟩

/-! ## Cycle-fold lemmas -/

theorem pollFold_frame {Id : Type} [LinearOrder Id] (sink : Tweet Id → Bool)
    (es : List (String × List (Tweet Id))) :
    ∀ (outs : List (String × List (Tweet Id × Bool))) (w : Wm Id) (k : String),
      (∀ e ∈ es, k ≠ jsToLower e.1) →
      (es.foldl (pollEntryStep sink) (outs, w)).2 k = w k := by
  induction es with
  | nil => intro outs w k _; rfl
  | cons e rest ih =>
    intro outs w k hk
    rw [List.foldl_cons]
    have hstep : pollEntryStep sink (outs, w) e
        = (outs ++ [(e.1, (processAuthor sink w e.1 e.2).1)],
            (processAuthor sink w e.1 e.2).2) := rfl
    rw [hstep, ih _ _ k (fun e' he' => hk e' (List.mem_cons_of_mem e he'))]
    exact processAuthor_snd_apply_ne sink w e.1 e.2 k (hk e (List.mem_cons_self e rest))

theorem pollFold_fst {Id : Type} [LinearOrder Id] (sink : Tweet Id → Bool)
    (es : List (String × List (Tweet Id))) :
    ∀ (outs : List (String × List (Tweet Id × Bool))) (w : Wm Id),
      (es.Pairwise fun e e' => e.1 ≠ e'.1) →
      (∀ e ∈ es, jsToLower e.1 = e.1) →
      (es.foldl (pollEntryStep sink) (outs, w)).1
        = outs ++ es.map fun e => (e.1, (processAuthor sink w e.1 e.2).1) := by
  induction es with
  | nil => intro outs w _ _; simp
  | cons e rest ih =>
    intro outs w hpw hlow
    rw [List.pairwise_cons] at hpw
    rw [List.foldl_cons]
    have hstep : pollEntryStep sink (outs, w) e
        = (outs ++ [(e.1, (processAuthor sink w e.1 e.2).1)],
            (processAuthor sink w e.1 e.2).2) := rfl
    rw [hstep, ih _ _ hpw.2 (fun e' he' => hlow e' (List.mem_cons_of_mem e he'))]
    have hmap :
        (rest.map fun e' =>
          (e'.1, (processAuthor sink (processAuthor sink w e.1 e.2).2 e'.1 e'.2).1))
        = rest.map fun e' => (e'.1, (processAuthor sink w e'.1 e'.2).1) := by
      apply List.map_congr_left
      intro e' he'
      have hne : jsToLower e'.1 ≠ jsToLower e.1 := by
        rw [hlow e' (List.mem_cons_of_mem e he'), hlow e (List.mem_cons_self e rest)]
        exact fun hc => hpw.1 e' he' hc.symm
      have hget : getWm (processAuthor sink w e.1 e.2).2 e'.1 = getWm w e'.1 :=
        processAuthor_snd_apply_ne sink w e.1 e.2 (jsToLower e'.1) hne
      rw [processAuthor_fst_congr sink _ w e'.1 e'.2 hget]
    rw [hmap, List.map_cons, List.append_assoc, List.singleton_append]

theorem pollFold_snd_at {Id : Type} [LinearOrder Id] (sink : Tweet Id → Bool)
    (es : List (String × List (Tweet Id))) :
    ∀ (outs : List (String × List (Tweet Id × Bool))) (w : Wm Id)
      (a : String) (ts : List (Tweet Id)),
      (es.Pairwise fun e e' => e.1 ≠ e'.1) →
      (∀ e ∈ es, jsToLower e.1 = e.1) →
      (a, ts) ∈ es →
      (es.foldl (pollEntryStep sink) (outs, w)).2 (jsToLower a)
        = (processAuthor sink w a ts).2 (jsToLower a) := by
  induction es with
  | nil => intro _ _ _ _ _ _ h; cases h
  | cons e rest ih =>
    intro outs w a ts hpw hlow hmem
    rw [List.pairwise_cons] at hpw
    rw [List.foldl_cons]
    have hstep : pollEntryStep sink (outs, w) e
        = (outs ++ [(e.1, (processAuthor sink w e.1 e.2).1)],
            (processAuthor sink w e.1 e.2).2) := rfl
    rw [hstep]
    rcases List.mem_cons.mp hmem with he | hmem
    · cases he
      rw [pollFold_frame sink rest _ _ (jsToLower a) ?_]
      intro e' he'
      rw [hlow e' (List.mem_cons_of_mem _ he')]
      have h1 : jsToLower a = a := hlow (a, ts) (List.mem_cons_self _ _)
      rw [h1]
      exact hpw.1 e' he'
    · rw [ih _ _ a ts hpw.2 (fun e' he' => hlow e' (List.mem_cons_of_mem e he')) hmem]
      apply processAuthor_snd_self_congr
      show (processAuthor sink w e.1 e.2).2 (jsToLower a) = w (jsToLower a)
      apply processAuthor_snd_apply_ne
      have h1 : jsToLower a = a := hlow (a, ts) (List.mem_cons_of_mem e hmem)
      have h2 : jsToLower e.1 = e.1 := hlow e (List.mem_cons_self e rest)
      rw [h1, h2]
      exact fun hc => hpw.1 (a, ts) hmem hc.symm

theorem pollFold_mono {Id : Type} [LinearOrder Id] (sink : Tweet Id → Bool)
    (es : List (String × List (Tweet Id))) :
    ∀ (outs : List (String × List (Tweet Id × Bool))) (w : Wm Id)
      (k : String) (v : Id),
      w k = some v →
      ∃ v', (es.foldl (pollEntryStep sink) (outs, w)).2 k = some v' ∧ v ≤ v' := by
  induction es with
  | nil => intro outs w k v h; exact ⟨v, h, le_refl v⟩
  | cons e rest ih =>
    intro outs w k v h
    rw [List.foldl_cons]
    have hstep : pollEntryStep sink (outs, w) e
        = (outs ++ [(e.1, (processAuthor sink w e.1 e.2).1)],
            (processAuthor sink w e.1 e.2).2) := rfl
    rw [hstep]
    obtain ⟨v₁, hv₁, hle₁⟩ := processAuthor_snd_mono sink w e.1 e.2 k v h
    obtain ⟨v₂, hv₂, hle₂⟩ := ih _ _ k v₁ hv₁
    exact ⟨v₂, hv₂, le_trans hle₁ hle₂⟩

theorem pollFold_sink_ind {Id : Type} [LinearOrder Id]
    (sink₁ sink₂ : Tweet Id → Bool) (es : List (String × List (Tweet Id))) :
    ∀ (outs₁ outs₂ : List (String × List (Tweet Id × Bool))) (w : Wm Id),
      (es.foldl (pollEntryStep sink₁) (outs₁, w)).2
        = (es.foldl (pollEntryStep sink₂) (outs₂, w)).2 := by
  induction es with
  | nil => intro _ _ _; rfl
  | cons e rest ih =>
    intro outs₁ outs₂ w
    rw [List.foldl_cons, List.foldl_cons]
    have h₁ : pollEntryStep sink₁ (outs₁, w) e
        = (outs₁ ++ [(e.1, (processAuthor sink₁ w e.1 e.2).1)],
            (processAuthor sink₁ w e.1 e.2).2) := rfl
    have h₂ : pollEntryStep sink₂ (outs₂, w) e
        = (outs₂ ++ [(e.1, (processAuthor sink₂ w e.1 e.2).1)],
            (processAuthor sink₂ w e.1 e.2).2) := rfl
    rw [h₁, h₂, processAuthor_snd_sink_ind sink₁ sink₂ w e.1 e.2]
    exact ih _ _ _

theorem pollCycle_mem_fst_iff {Id : Type} [LinearOrder Id]
    (sink : Tweet Id → Bool) (w : Wm Id) (tweets : List (Tweet Id))
    (a : String) (ds : List (Tweet Id × Bool)) :
    (a, ds) ∈ (pollCycle sink w tweets).1 ↔
      ∃ ts, findGroup (groupByAuthor tweets) a = some ts
        ∧ ds = (processAuthor sink w a ts).1 := by
  unfold pollCycle
  rw [pollFold_fst sink (groupByAuthor tweets) [] w
    (groupByAuthor_keys_pairwise tweets)
    (fun e he => groupByAuthor_key_lowered tweets e he)]
  simp only [List.nil_append, List.mem_map]
  constructor
  · rintro ⟨e, he, heq⟩
    injection heq with h1 h2
    subst h1
    refine ⟨e.2, ?_, h2.symm⟩
    rw [← mem_group_iff_findGroup _ (groupByAuthor_keys_pairwise tweets)]
    exact he
  · rintro ⟨ts, hfind, rfl⟩
    refine ⟨(a, ts), ?_, rfl⟩
    rw [mem_group_iff_findGroup _ (groupByAuthor_keys_pairwise tweets)]
    exact hfind

/-! ## Dedup-cache lemmas -/

theorem remember_fold_drop {α : Type} [DecidableEq α] (l : List α) :
    ∀ c : List α, (c ++ l).Nodup → c.length ≤ 100 →
      List.foldl remember c l = (c ++ l).drop (c.length + l.length - 100) := by
  induction l with
  | nil =>
    intro c _ hlen
    simp only [List.foldl_nil, List.append_nil, List.length_nil, Nat.add_zero,
      Nat.sub_eq_zero_of_le hlen, List.drop_zero]
  | cons x xs ih =>
    intro c hnd hlen
    rw [List.foldl_cons]
    have hx : x ∉ c := by
      rcases List.nodup_append.mp hnd with ⟨-, -, hdis⟩
      intro hxc
      exact hdis hxc (List.mem_cons_self x xs)
    have hcon : c.contains x = false := by simp [hx]
    have hrem : remember c x =
        if (c ++ [x]).length > 100 then (c ++ [x]).tail else c ++ [x] := by
      unfold remember
      simp [hx]
    by_cases hc : c.length = 100
    · obtain ⟨y, c', rfl⟩ : ∃ y c', c = y :: c' := by
        cases c with
        | nil => simp at hc
        | cons y c' => exact ⟨y, c', rfl⟩
      have hc' : c'.length = 99 := by simpa using hc
      rw [hrem,
        if_pos (by
          simp only [List.length_append, List.length_cons, List.length_nil, hc']
          omega)]
      have htail : ((y :: c') ++ [x]).tail = c' ++ [x] := rfl
      rw [htail]
      have e1 : (c' ++ [x]) ++ xs = c' ++ x :: xs := by simp
      have hnd2 : (c' ++ x :: xs).Nodup := by
        have h3 : (y :: (c' ++ x :: xs)).Nodup := by
          rw [← List.cons_append]
          exact hnd
        exact (List.nodup_cons.mp h3).2
      have hnd' : ((c' ++ [x]) ++ xs).Nodup := by
        rw [e1]
        exact hnd2
      rw [ih (c' ++ [x]) hnd'
        (by simp only [List.length_append, List.length_cons, List.length_nil, hc']; omega)]
      have e2 : (y :: c') ++ x :: xs = y :: (c' ++ x :: xs) := by simp
      have a1 : (c' ++ [x]).length + xs.length - 100 = xs.length := by
        simp only [List.length_append, List.length_cons, List.length_nil, hc']
        omega
      have a2 : (y :: c').length + (x :: xs).length - 100 = xs.length + 1 := by
        simp only [List.length_cons, hc']
        omega
      rw [e1, e2, a1, a2, List.drop_succ_cons]
    · have hlt : c.length ≤ 99 := by omega
      rw [hrem,
        if_neg (by
          simp only [List.length_append, List.length_cons, List.length_nil]
          omega)]
      have e1 : (c ++ [x]) ++ xs = c ++ x :: xs := by simp
      have hnd' : ((c ++ [x]) ++ xs).Nodup := by
        rw [e1]
        exact hnd
      rw [ih (c ++ [x]) hnd'
        (by simp only [List.length_append, List.length_cons, List.length_nil]; omega)]
      have a3 : (c ++ [x]).length + xs.length - 100
          = c.length + (x :: xs).length - 100 := by
        simp only [List.length_append, List.length_cons, List.length_nil]
        omega
      rw [e1, a3]

/-! ## Small helpers for the claim statements -/

theorem mem_map_fst_sink {Id : Type} (l : List (Tweet Id))
    (f : Tweet Id → Bool) (t : Tweet Id) :
    t ∈ (l.map fun u => (u, f u)).map Prod.fst ↔ t ∈ l := by
  rw [List.map_map]
  simp [Function.comp]

theorem processAuthor_eq_of_present {Id : Type} [LinearOrder Id]
    (sink : Tweet Id → Bool) (w : Wm Id) (a : String) (ts : List (Tweet Id))
    (top : Tweet Id) (rest : List (Tweet Id)) (wm : Id)
    (hsort : sortByIdDesc ts = top :: rest) (hwm : getWm w a = some wm) :
    processAuthor sink w a ts
      = match (top :: rest).filter (fun s => decide (wm < s.id)) with
        | [] => ([], w)
        | n₀ :: ns =>
          ((n₀ :: ns).reverse.map (fun u => (u, sink u)), setWm w a top.id) := by
  unfold processAuthor
  rw [hsort, hwm]

/-! ## The claims -/

/-- Claim C1: for every account whose watermark is present, the set of items
dispatched for that account in a cycle is exactly the fetched items of that
account whose id is strictly greater than the watermark — nothing at or
below the watermark is dispatched and nothing above it is withheld. -/
theorem thm_C1 {Id : Type} [LinearOrder Id] (sink : Tweet Id → Bool)
    (w : Wm Id) (tweets : List (Tweet Id)) (a : String)
    (ds : List (Tweet Id × Bool)) (wm : Id) (t : Tweet Id)
    (hwm : getWm w a = some wm)
    (hmem : (a, ds) ∈ (pollCycle sink w tweets).1) :
    t ∈ ds.map Prod.fst ↔ t ∈ tweets ∧ authorKey t = some a ∧ wm < t.id := by
  obtain ⟨ts, hfind, hds⟩ := (pollCycle_mem_fst_iff sink w tweets a ds).mp hmem
  obtain ⟨hts, hne⟩ := (findGroup_groupByAuthor_some tweets a ts).mp hfind
  obtain ⟨x, hx⟩ := List.exists_mem_of_ne_nil ts hne
  obtain ⟨top, rest, hsort⟩ : ∃ top rest, sortByIdDesc ts = top :: rest := by
    cases hs : sortByIdDesc ts with
    | nil => exact absurd ((mem_sortByIdDesc x ts).mpr hx) (by rw [hs]; simp)
    | cons top rest => exact ⟨top, rest, rfl⟩
  have hmemfil : ∀ u : Tweet Id,
      u ∈ (top :: rest).filter (fun s => decide (wm < s.id)) ↔
        (u ∈ tweets ∧ authorKey u = some a ∧ wm < u.id) := by
    intro u
    rw [List.mem_filter, ← hsort, mem_sortByIdDesc, hts]
    unfold filterKey
    rw [List.mem_filter]
    simp [and_assoc]
  have heq := processAuthor_eq_of_present sink w a ts top rest wm hsort hwm
  cases hfil : (top :: rest).filter (fun s => decide (wm < s.id)) with
  | nil =>
    have hpa : processAuthor sink w a ts = ([], w) := by
      rw [heq, hfil]
    have h0 := hmemfil t
    rw [hfil] at h0
    rw [hds, hpa]
    simp only [List.map_nil, List.not_mem_nil, false_iff]
    intro hR
    exact absurd (h0.mpr hR) (List.not_mem_nil t)
  | cons n₀ ns =>
    have hpa : processAuthor sink w a ts
        = ((n₀ :: ns).reverse.map (fun u => (u, sink u)), setWm w a top.id) := by
      rw [heq, hfil]
    have hds' : ds = (n₀ :: ns).reverse.map (fun u => (u, sink u)) := by
      rw [hds, hpa]
    rw [hds', mem_map_fst_sink, List.mem_reverse]
    have h0 := hmemfil t
    rw [hfil] at h0
    exact h0

/-- Claim C2: an account first seen in a cycle (absent watermark) has
nothing dispatched, and its watermark is set to the id of the newest
fetched item of that account. -/
theorem thm_C2 {Id : Type} [LinearOrder Id] (sink : Tweet Id → Bool)
    (w : Wm Id) (tweets : List (Tweet Id)) (a : String)
    (ds : List (Tweet Id × Bool))
    (habs : getWm w a = none)
    (hmem : (a, ds) ∈ (pollCycle sink w tweets).1) :
    ds = []
    ∧ getWm (pollCycle sink w tweets).2 a
        = (sortByIdDesc (filterKey tweets a)).head?.map Tweet.id
    ∧ ∀ t ∈ tweets, authorKey t = some a →
        ∀ m, getWm (pollCycle sink w tweets).2 a = some m → t.id ≤ m := by
  obtain ⟨ts, hfind, hds⟩ := (pollCycle_mem_fst_iff sink w tweets a ds).mp hmem
  obtain ⟨hts, hne⟩ := (findGroup_groupByAuthor_some tweets a ts).mp hfind
  obtain ⟨x, hx⟩ := List.exists_mem_of_ne_nil ts hne
  obtain ⟨top, rest, hsort⟩ : ∃ top rest, sortByIdDesc ts = top :: rest := by
    cases hs : sortByIdDesc ts with
    | nil => exact absurd ((mem_sortByIdDesc x ts).mpr hx) (by rw [hs]; simp)
    | cons top rest => exact ⟨top, rest, rfl⟩
  have hpa : processAuthor sink w a ts = ([], setWm w a top.id) := by
    unfold processAuthor
    rw [hsort, habs]
  have hkey : (a, ts) ∈ groupByAuthor tweets :=
    (mem_group_iff_findGroup _ (groupByAuthor_keys_pairwise tweets) a ts).mpr hfind
  have hsnd : (pollCycle sink w tweets).2 (jsToLower a)
      = (processAuthor sink w a ts).2 (jsToLower a) :=
    pollFold_snd_at sink (groupByAuthor tweets) [] w a ts
      (groupByAuthor_keys_pairwise tweets)
      (fun e he => groupByAuthor_key_lowered tweets e he) hkey
  have hval : getWm (pollCycle sink w tweets).2 a = some top.id := by
    show (pollCycle sink w tweets).2 (jsToLower a) = some top.id
    rw [hsnd, hpa]
    simp [setWm]
  refine ⟨by rw [hds, hpa], ?_, ?_⟩
  · rw [hval, ← hts, hsort]
    rfl
  · intro t htw hk m hm
    rw [hval] at hm
    injection hm with hm'
    have htts : t ∈ ts := by
      rw [hts]
      unfold filterKey
      rw [List.mem_filter]
      exact ⟨htw, by simp [hk]⟩
    rw [← hm']
    exact sortByIdDesc_head_max ts top rest hsort t htts

/-- Claim C3: over any cycle (any handle list, any fetch outcome), an
account's watermark never moves backward: it stays present and its value
only grows in the id order. -/
theorem thm_C3 {Id : Type} [LinearOrder Id] (sink : Tweet Id → Bool)
    (w : Wm Id) (handles : List String)
    (fetched : Except String (List (Tweet Id))) (b : String) (wm : Id)
    (hwm : getWm w b = some wm) :
    getWm (pollRun sink w handles fetched).2 b ≠ none
    ∧ ∀ wm', getWm (pollRun sink w handles fetched).2 b = some wm' → wm ≤ wm' := by
  cases handles with
  | nil =>
    refine ⟨?_, ?_⟩
    · show getWm w b ≠ none
      rw [hwm]
      simp
    · intro wm' h
      have h' : getWm w b = some wm' := h
      rw [hwm] at h'
      injection h' with h''
      rw [← h'']
  | cons h₀ hs =>
    cases fetched with
    | error e =>
      refine ⟨?_, ?_⟩
      · show getWm w b ≠ none
        rw [hwm]
        simp
      · intro wm' h
        have h' : getWm w b = some wm' := h
        rw [hwm] at h'
        injection h' with h''
        rw [← h'']
    | ok tweets =>
      obtain ⟨v', hv', hle⟩ :=
        pollFold_mono sink (groupByAuthor tweets) [] w (jsToLower b) wm hwm
      refine ⟨?_, ?_⟩
      · show ((groupByAuthor tweets).foldl (pollEntryStep sink) ([], w)).2
            (jsToLower b) ≠ none
        rw [hv']
        simp
      · intro wm' h
        have h' : ((groupByAuthor tweets).foldl (pollEntryStep sink) ([], w)).2
            (jsToLower b) = some wm' := h
        rw [hv'] at h'
        injection h' with h''
        rw [← h'']
        exact hle

/-- Claim C4: for an account with a non-empty new set, the watermark is
advanced to the newest item's id after all items were attempted, and the
resulting watermark state is the same for every delivery-outcome oracle —
failed deliveries do not prevent the advance. -/
theorem thm_C4 {Id : Type} [LinearOrder Id] (sink : Tweet Id → Bool)
    (w : Wm Id) (tweets : List (Tweet Id)) (a : String)
    (ds : List (Tweet Id × Bool)) (wm : Id)
    (hwm : getWm w a = some wm)
    (hmem : (a, ds) ∈ (pollCycle sink w tweets).1)
    (hne : ds ≠ []) :
    getWm (pollCycle sink w tweets).2 a
        = (sortByIdDesc (filterKey tweets a)).head?.map Tweet.id
    ∧ ∀ (sink' : Tweet Id → Bool) (b : String),
        (pollCycle sink' w tweets).2 b = (pollCycle sink w tweets).2 b := by
  obtain ⟨ts, hfind, hds⟩ := (pollCycle_mem_fst_iff sink w tweets a ds).mp hmem
  obtain ⟨hts, htsne⟩ := (findGroup_groupByAuthor_some tweets a ts).mp hfind
  obtain ⟨x, hx⟩ := List.exists_mem_of_ne_nil ts htsne
  obtain ⟨top, rest, hsort⟩ : ∃ top rest, sortByIdDesc ts = top :: rest := by
    cases hs : sortByIdDesc ts with
    | nil => exact absurd ((mem_sortByIdDesc x ts).mpr hx) (by rw [hs]; simp)
    | cons top rest => exact ⟨top, rest, rfl⟩
  have hsink : ∀ (sink' : Tweet Id → Bool) (b : String),
      (pollCycle sink' w tweets).2 b = (pollCycle sink w tweets).2 b := by
    intro sink' b
    show ((groupByAuthor tweets).foldl (pollEntryStep sink') ([], w)).2 b
        = ((groupByAuthor tweets).foldl (pollEntryStep sink) ([], w)).2 b
    rw [pollFold_sink_ind sink' sink (groupByAuthor tweets) [] [] w]
  have heq := processAuthor_eq_of_present sink w a ts top rest wm hsort hwm
  cases hfil : (top :: rest).filter (fun s => decide (wm < s.id)) with
  | nil =>
    exfalso
    apply hne
    rw [hds, heq, hfil]
  | cons n₀ ns =>
    have hpa : processAuthor sink w a ts
        = ((n₀ :: ns).reverse.map (fun u => (u, sink u)), setWm w a top.id) := by
      rw [heq, hfil]
    have hkey : (a, ts) ∈ groupByAuthor tweets :=
      (mem_group_iff_findGroup _ (groupByAuthor_keys_pairwise tweets) a ts).mpr hfind
    have hsnd : (pollCycle sink w tweets).2 (jsToLower a)
        = (processAuthor sink w a ts).2 (jsToLower a) :=
      pollFold_snd_at sink (groupByAuthor tweets) [] w a ts
        (groupByAuthor_keys_pairwise tweets)
        (fun e he => groupByAuthor_key_lowered tweets e he) hkey
    have hval : getWm (pollCycle sink w tweets).2 a = some top.id := by
      show (pollCycle sink w tweets).2 (jsToLower a) = some top.id
      rw [hsnd, hpa]
      simp [setWm]
    refine ⟨?_, hsink⟩
    rw [hval, ← hts, hsort]
    rfl

/-- Claim C5: when the fetch throws, the cycle makes no webhook call and
leaves every watermark untouched. -/
theorem thm_C5 {Id : Type} [LinearOrder Id] (sink : Tweet Id → Bool)
    (w : Wm Id) (handles : List String) (msg : String) :
    pollRun sink w handles (Except.error msg) = ([], w) := by
  cases handles with
  | nil => rfl
  | cons h₀ hs => rfl

/-- Claim C6: items delivered for one account within one cycle go out
oldest-first — whenever the item at position `i` has a strictly greater id
than the item at position `j`, position `i` comes after position `j`. -/
theorem thm_C6 {Id : Type} [LinearOrder Id] (sink : Tweet Id → Bool)
    (w : Wm Id) (tweets : List (Tweet Id)) (a : String)
    (ds : List (Tweet Id × Bool))
    (hmem : (a, ds) ∈ (pollCycle sink w tweets).1)
    (i j : Nat) (hi : i < ds.length) (hj : j < ds.length)
    (hgt : (ds.get ⟨j, hj⟩).1.id < (ds.get ⟨i, hi⟩).1.id) : j < i := by
  obtain ⟨ts, hfind, hds⟩ := (pollCycle_mem_fst_iff sink w tweets a ds).mp hmem
  have hpw : ds.Pairwise fun x y => x.1.id ≤ y.1.id := by
    rw [hds]
    unfold processAuthor
    split
    · simp
    next top rest hsort =>
      split
      · simp
      next lastSeen hg =>
        split
        · simp
        next n₀ ns hfil =>
          rw [List.pairwise_map, List.pairwise_reverse]
          rw [← hfil]
          apply List.Pairwise.sublist (List.filter_sublist _)
          have hp := sortByIdDesc_pairwise ts
          rw [hsort] at hp
          exact hp
  have hmono := List.pairwise_iff_get.mp hpw
  rcases lt_trichotomy i j with hij | hij | hij
  · exfalso
    have hle := hmono ⟨i, hi⟩ ⟨j, hj⟩ hij
    exact absurd (lt_of_le_of_lt hle hgt) (lt_irrefl _)
  · exfalso
    subst hij
    exact absurd hgt (lt_irrefl _)
  · exact hij

set_option maxRecDepth 8000

/-- Claim C7 counterexample: the Partition step never consults the
configured account list.  With only `acct1` configured, an item authored by
the unconfigured `intruder` gets a watermark row created for `intruder` on
first sight, and once that watermark exists a later item from `intruder` is
dispatched — contradicting "items from unconfigured accounts are
discarded: no such item is dispatched and no watermark is created or
advanced for an unconfigured account". -/
theorem thm_C7_cex :
    (("intruder") ∉ [("acct1")])
    ∧ (pollRun (fun _ => true) (fun _ => (none : Option Nat)) [("acct1")]
        (Except.ok [⟨50, some ("intruder")⟩])).2 ("intruder") = some 50
    ∧ (pollRun (fun _ => true)
        (fun h => if h = ("intruder") then some 50 else none) [("acct1")]
        (Except.ok [⟨60, some ("intruder")⟩])).1
      = [(("intruder"), [(⟨60, some ("intruder")⟩, true)])] := by
  refine ⟨by decide, by decide, by decide⟩

/-- Claim C7 as amended: during Partition, items are grouped solely by
their own (lowercased) author user name; a bucket for key `k` exists
exactly when some fetched item has author key `k`, and it holds exactly
those items.  Only items whose author attribution is missing or empty are
discarded; the configured account list plays no part, so items from
unconfigured accounts are processed like any others (see the
counterexample for the resulting watermark/dispatch). -/
theorem thm_C7_amended {Id : Type} (tweets : List (Tweet Id)) (k : String)
    (ts : List (Tweet Id)) :
    (findGroup (groupByAuthor tweets) k = some ts ↔
      (ts = filterKey tweets k ∧ ts ≠ []))
    ∧ ∀ t ∈ tweets, authorKey t = none → t ∉ filterKey tweets k := by
  refine ⟨findGroup_groupByAuthor_some tweets k ts, ?_⟩
  intro t _ ha hmem
  unfold filterKey at hmem
  rw [List.mem_filter] at hmem
  have : authorKey t = some k := by simpa using hmem.2
  rw [ha] at this
  cases this

/-- Witness for C7 (amended): the unconfigured `intruder` item forms its
own bucket, and an item without author attribution lands in no bucket. -/
theorem wit_C7 :
    ((findGroup (groupByAuthor [(⟨60, some ("intruder")⟩ : Tweet Nat)])
        ("intruder") = some [⟨60, some ("intruder")⟩])
      ↔ (([(⟨60, some ("intruder")⟩ : Tweet Nat)]
            = filterKey [⟨60, some ("intruder")⟩] ("intruder"))
          ∧ [(⟨60, some ("intruder")⟩ : Tweet Nat)] ≠ []))
    ∧ (⟨70, (none : Option String)⟩ : Tweet Nat) ∉
        filterKey [(⟨70, (none : Option String)⟩ : Tweet Nat)] ("intruder") := by
  refine ⟨?_, ?_⟩
  · exact (thm_C7_amended [(⟨60, some ("intruder")⟩ : Tweet Nat)]
      ("intruder") [⟨60, some ("intruder")⟩]).1
  · exact (thm_C7_amended [(⟨70, (none : Option String)⟩ : Tweet Nat)]
      ("intruder") []).2 ⟨70, none⟩ (by decide) rfl

/-- Claim C8 counterexample: the process starts a cycle (`main()` calls
`poll()`), and while that cycle is still running a manual trigger calls
`restartPolling()`, which only clears the pending timer and invokes
`poll()` again — leaving two cycles in flight, contradicting "at most one
poll cycle runs at a time / a mid-cycle trigger is coalesced". -/
theorem thm_C8_cex :
    (schedRun [SchedEvent.boot, SchedEvent.trigger]).running = 2
    ∧ ¬ (schedRun [SchedEvent.boot, SchedEvent.trigger]).running ≤ 1 := by
  refine ⟨by decide, by decide⟩

/-- Claim C8 as amended: a manual trigger or configuration change always
cancels only the pending idle timer and starts a new cycle immediately;
when a cycle is already in flight the new cycle overlaps it — there is no
mutual exclusion and no coalescing. -/
theorem thm_C8_amended (s : SchedState) (h : 1 ≤ s.running) :
    2 ≤ (schedStep s SchedEvent.trigger).running
    ∧ (schedStep s SchedEvent.trigger).timerArmed = false := by
  have hs : schedStep s SchedEvent.trigger
      = { running := s.running + 1, timerArmed := false } := rfl
  rw [hs]
  exact ⟨Nat.succ_le_succ h, rfl⟩

/-- Witness for C8 (amended): from boot, one cycle is in flight; a trigger
then yields two overlapping cycles and a disarmed timer. -/
theorem wit_C8 :
    1 ≤ (schedRun [SchedEvent.boot]).running
    ∧ 2 ≤ (schedStep (schedRun [SchedEvent.boot]) SchedEvent.trigger).running
    ∧ (schedStep (schedRun [SchedEvent.boot]) SchedEvent.trigger).timerArmed
        = false := by
  refine ⟨by decide, ?_, ?_⟩
  · exact (thm_C8_amended (schedRun [SchedEvent.boot]) (by decide)).1
  · exact (thm_C8_amended (schedRun [SchedEvent.boot]) (by decide)).2

/-- Claim C9: the consumer dedup cache has capacity 100: remembering 101
distinct ids in order leaves the first id forgotten and the last 100 ids
seen, and a `remember` on a full cache evicts exactly the oldest entry
(FIFO). -/
theorem thm_C9 :
    (∀ (α : Type) [DecidableEq α] (l : List α) (x : α),
        l.Nodup → l.length = 101 → l.head? = some x →
        seen (List.foldl remember [] l) x = false
          ∧ ∀ y ∈ l.tail, seen (List.foldl remember [] l) y = true)
    ∧ ∀ (α : Type) [DecidableEq α] (c : List α) (x : α),
        c.length = 100 → x ∉ c → remember c x = c.tail ++ [x] := by
  constructor
  · intro α inst l x hnd hlen hhead
    have hfold : List.foldl remember [] l = l.tail := by
      have h := remember_fold_drop l [] (by simpa using hnd) (by simp)
      simp only [List.nil_append, List.length_nil, Nat.zero_add, hlen] at h
      rw [h]
      exact List.drop_one l
    cases l with
    | nil => cases hhead
    | cons x₀ tl =>
      have hx : x₀ = x := by
        have hh : some x₀ = some x := hhead
        exact Option.some_injective _ hh
      subst hx
      have htl : (x₀ :: tl).tail = tl := rfl
      rw [hfold, htl]
      constructor
      · have hnx : x₀ ∉ tl := (List.nodup_cons.mp hnd).1
        simp [seen, hnx]
      · intro y hy
        have hy' : y ∈ tl := hy
        simp [seen, hy']
  · intro α inst c x hlen hx
    have hrem : remember c x =
        if (c ++ [x]).length > 100 then (c ++ [x]).tail else c ++ [x] := by
      unfold remember
      simp [hx]
    rw [hrem,
      if_pos (by
        simp only [List.length_append, List.length_cons, List.length_nil, hlen]
        omega)]
    cases c with
    | nil => simp at hlen
    | cons y c' => rfl

/-- Witness for C9: 101 distinct ids `0..100`; after remembering all of
them the first is forgotten and a late one is seen, and a full cache of
`0..99` evicts `0` when `100` is remembered. -/
theorem wit_C9 :
    ((List.range 101).Nodup ∧ (List.range 101).length = 101
      ∧ (List.range 101).head? = some 0
      ∧ seen (List.foldl remember [] (List.range 101)) 0 = false
      ∧ seen (List.foldl remember [] (List.range 101)) 100 = true)
    ∧ ((List.range 100).length = 100 ∧ 100 ∉ List.range 100
      ∧ remember (List.range 100) 100 = (List.range 100).tail ++ [100]) := by
  refine ⟨⟨List.nodup_range 101, by simp, by decide, ?_, ?_⟩, by simp, ?_, ?_⟩
  · exact (thm_C9.1 Nat (List.range 101) 0 (List.nodup_range 101)
      (by simp) (by decide)).1
  · exact (thm_C9.1 Nat (List.range 101) 0 (List.nodup_range 101)
      (by simp) (by decide)).2 100 (by decide)
  · simp [List.mem_range]
  · exact thm_C9.2 Nat (List.range 100) 100 (by simp) (by simp [List.mem_range])

/-- Claim C10: in the session-based MCP server, after any session `s₁`
authenticates with a backend-valid key `k`, a tool call from a different
session `s₂` that never authenticated and passes no `api_key` parameter
resolves to `k`: `getApiKey` falls back to the module-level
`lastUsedApiKey`, which is in the validated-keys cache, so one session's
credentials are reused by an unrelated session. -/
theorem thm_C10 (backendValid : String → Bool) (st : McpState)
    (s₁ s₂ k : String)
    (h₁ : s₁ ≠ s₂) (h₂ : st.sessions s₂ = none)
    (h₃ : backendValid k = true) (h₄ : k ≠ ("")) :
    (getApiKey (authenticateTool backendValid st s₁ k).2 s₂ none).1 = some k := by
  unfold authenticateTool
  rw [if_neg h₄]
  by_cases hc : st.validatedApiKeys.contains k = true
  · have hmem : k ∈ st.validatedApiKeys := by
      by_contra hnm
      rw [(by simp [hnm] : st.validatedApiKeys.contains k = false)] at hc
      cases hc
    have hv : validateApiKeyM backendValid st k = (true, st) := by
      unfold validateApiKeyM
      rw [if_pos hc]
    rw [hv]
    simp [getApiKey, getApiKeySession, getApiKeyLastUsed, Ne.symm h₁, h₂, h₄, hmem]
  · simp only [Bool.not_eq_true] at hc
    have hnm : k ∉ st.validatedApiKeys := by
      intro hm
      rw [(by simp [hm] : st.validatedApiKeys.contains k = true)] at hc
      cases hc
    have hv : validateApiKeyM backendValid st k
        = (true, { st with validatedApiKeys := st.validatedApiKeys ++ [k] }) := by
      unfold validateApiKeyM
      rw [if_neg (by simp [hnm]), if_pos h₃]
    rw [hv]
    simp [getApiKey, getApiKeySession, getApiKeyLastUsed, Ne.symm h₁, h₂, h₄, hnm]

/-- Witness for C10: on a fresh server state, session `A` authenticates
with `pk_live`; a tool call from the unauthenticated session `B` with no
`api_key` parameter resolves to `pk_live`. -/
theorem wit_C10 :
    (("A" : String) ≠ ("B"))
    ∧ (McpState.mk (fun _ => none) none []).sessions ("B") = none
    ∧ (fun _ : String => true) ("pk_live") = true
    ∧ (("pk_live" : String) ≠ (""))
    ∧ (getApiKey
        (authenticateTool (fun _ => true)
          (McpState.mk (fun _ => none) none []) ("A") ("pk_live")).2
        ("B") none).1 = some ("pk_live") := by
  refine ⟨by decide, rfl, rfl, by decide, ?_⟩
  exact thm_C10 (fun _ => true) (McpState.mk (fun _ => none) none [])
    ("A") ("B") ("pk_live") (by decide) rfl rfl (by decide)

/-- Witness for C1: with watermark 100 for `acct1` and a batch holding ids
101 and 99 for `acct1`, the dispatched set is exactly the id-101 item. -/
theorem wit_C1 :
    getWm (fun h => if h = ("acct1") then some (100 : Nat) else none)
        ("acct1") = some 100
    ∧ ((("acct1"), [((⟨101, some ("acct1")⟩ : Tweet Nat), true)]) ∈
        (pollCycle (fun _ => true)
          (fun h => if h = ("acct1") then some (100 : Nat) else none)
          [⟨101, some ("acct1")⟩, ⟨99, some ("acct1")⟩]).1)
    ∧ ((⟨101, some ("acct1")⟩ : Tweet Nat) ∈
          ([((⟨101, some ("acct1")⟩ : Tweet Nat), true)].map Prod.fst)
        ↔ ((⟨101, some ("acct1")⟩ : Tweet Nat) ∈
              [(⟨101, some ("acct1")⟩ : Tweet Nat), ⟨99, some ("acct1")⟩]
            ∧ authorKey (⟨101, some ("acct1")⟩ : Tweet Nat) = some ("acct1")
            ∧ (100 : Nat) < (⟨101, some ("acct1")⟩ : Tweet Nat).id)) := by
  refine ⟨by decide, by decide, ?_⟩
  exact thm_C1 (fun _ => true)
    (fun h => if h = ("acct1") then some (100 : Nat) else none)
    [⟨101, some ("acct1")⟩, ⟨99, some ("acct1")⟩] ("acct1")
    [((⟨101, some ("acct1")⟩ : Tweet Nat), true)] 100
    (⟨101, some ("acct1")⟩ : Tweet Nat) (by decide) (by decide)

/-- Witness for C2: first sight of `acct1` with fetched ids 100 and 101:
nothing dispatched and the watermark becomes 101. -/
theorem wit_C2 :
    getWm (fun _ => (none : Option Nat)) ("acct1") = none
    ∧ ((("acct1"), ([] : List (Tweet Nat × Bool))) ∈
        (pollCycle (fun _ => true) (fun _ => (none : Option Nat))
          [⟨100, some ("acct1")⟩, ⟨101, some ("acct1")⟩]).1)
    ∧ getWm (pollCycle (fun _ => true) (fun _ => (none : Option Nat))
        [⟨100, some ("acct1")⟩, ⟨101, some ("acct1")⟩]).2 ("acct1")
      = some 101 := by
  refine ⟨rfl, by decide, ?_⟩
  have h := (thm_C2 (fun _ => true) (fun _ => (none : Option Nat))
    [⟨100, some ("acct1")⟩, ⟨101, some ("acct1")⟩] ("acct1") []
    rfl (by decide)).2.1
  rw [h]
  decide

/-- Witness for C3: watermark 100, fetched id 101 — the watermark is still
present afterwards and did not move backward. -/
theorem wit_C3 :
    getWm (fun h => if h = ("acct1") then some (100 : Nat) else none)
        ("acct1") = some 100
    ∧ getWm (pollRun (fun _ => true)
        (fun h => if h = ("acct1") then some (100 : Nat) else none)
        [("acct1")] (Except.ok [⟨101, some ("acct1")⟩])).2 ("acct1") ≠ none
    ∧ (100 : Nat) ≤ 101 := by
  refine ⟨by decide, ?_, ?_⟩
  · exact (thm_C3 (fun _ => true)
      (fun h => if h = ("acct1") then some (100 : Nat) else none)
      [("acct1")] (Except.ok [⟨101, some ("acct1")⟩]) ("acct1") 100
      (by decide)).1
  · exact (thm_C3 (fun _ => true)
      (fun h => if h = ("acct1") then some (100 : Nat) else none)
      [("acct1")] (Except.ok [⟨101, some ("acct1")⟩]) ("acct1") 100
      (by decide)).2 101 (by decide)

/-- Witness for C4: watermark 100, one new item 101, and the after-cycle
watermark is 101 whether the sink reports success or failure. -/
theorem wit_C4 :
    getWm (fun h => if h = ("acct1") then some (100 : Nat) else none)
        ("acct1") = some 100
    ∧ ((("acct1"), [((⟨101, some ("acct1")⟩ : Tweet Nat), true)]) ∈
        (pollCycle (fun _ => true)
          (fun h => if h = ("acct1") then some (100 : Nat) else none)
          [⟨101, some ("acct1")⟩]).1)
    ∧ getWm (pollCycle (fun _ => true)
        (fun h => if h = ("acct1") then some (100 : Nat) else none)
        [⟨101, some ("acct1")⟩]).2 ("acct1") = some 101
    ∧ (pollCycle (fun _ => false)
        (fun h => if h = ("acct1") then some (100 : Nat) else none)
        [⟨101, some ("acct1")⟩]).2 ("acct1")
      = (pollCycle (fun _ => true)
        (fun h => if h = ("acct1") then some (100 : Nat) else none)
        [⟨101, some ("acct1")⟩]).2 ("acct1") := by
  refine ⟨by decide, by decide, ?_, ?_⟩
  · have h := (thm_C4 (fun _ => true)
      (fun h => if h = ("acct1") then some (100 : Nat) else none)
      [⟨101, some ("acct1")⟩] ("acct1")
      [((⟨101, some ("acct1")⟩ : Tweet Nat), true)] 100
      (by decide) (by decide) (by decide)).1
    rw [h]
    decide
  · exact (thm_C4 (fun _ => true)
      (fun h => if h = ("acct1") then some (100 : Nat) else none)
      [⟨101, some ("acct1")⟩] ("acct1")
      [((⟨101, some ("acct1")⟩ : Tweet Nat), true)] 100
      (by decide) (by decide) (by decide)).2 (fun _ => false) ("acct1")

/-- Witness for C6: two new items 101 and 102 go out as `[101, 102]`; the
strictly greater id sits at the later position. -/
theorem wit_C6 :
    ((("acct1"), [((⟨101, some ("acct1")⟩ : Tweet Nat), true),
        (⟨102, some ("acct1")⟩, true)]) ∈
      (pollCycle (fun _ => true)
        (fun h => if h = ("acct1") then some (100 : Nat) else none)
        [⟨101, some ("acct1")⟩, ⟨102, some ("acct1")⟩]).1)
    ∧ (0 : Nat) < 1 := by
  refine ⟨by decide, ?_⟩
  exact thm_C6 (fun _ => true)
    (fun h => if h = ("acct1") then some (100 : Nat) else none)
    [⟨101, some ("acct1")⟩, ⟨102, some ("acct1")⟩] ("acct1")
    [((⟨101, some ("acct1")⟩ : Tweet Nat), true), (⟨102, some ("acct1")⟩, true)]
    (by decide) 1 0 (by decide) (by decide) (by decide)

end PinchMe
